import Mathlib

/-!
Verification of the Viewing Coverage Engine of the Video Progress Tracker
(src/src/App.jsx).  Timeline positions are modelled as rationals.  The
JavaScript functions are embedded as pure Lean functions; the React state
(`watchedIntervals`, `currentProgress`, ...) becomes an explicit
`EngineState` record threaded through the event handlers.
-/

namespace App

/-- An interval `{start, end}` of the timeline, as produced by
`recordWatchedSegment` (`{ start, end }` object literals in the source). -/
structure Interval where
  start : ℚ
  «end» : ℚ
  deriving DecidableEq, Repr

/-- Stable insertion of an interval into a list sorted ascending by `start`.
`Array.prototype.sort` with comparator `(a, b) => a.start - b.start` is a
stable ascending sort by `start`; insertion sort is stable with the same
comparator, so the two agree on every input. -/
def insertSorted (a : Interval) : List Interval → List Interval
  | [] => [a]
  | b :: l => if a.start ≤ b.start then a :: b :: l else b :: insertSorted a l

/-- `[...intervals].sort((a, b) => a.start - b.start)` from `mergeIntervals`. -/
def sortIntervals : List Interval → List Interval
  | [] => []
  | a :: l => insertSorted a (sortIntervals l)

/-- The left-to-right sweep of `mergeIntervals` (the `for` loop): `cur` is the
interval at the top of the `merged` array (`lastMerged`); an incoming interval
with `start <= lastMerged.end + 1` extends it, otherwise it is pushed. -/
def mergeLoop : List Interval → Interval → List Interval
  | [], cur => [cur]
  | i :: rest, cur =>
    if i.start ≤ cur.«end» + 1 then
      mergeLoop rest ⟨cur.start, max cur.«end» i.«end»⟩
    else
      cur :: mergeLoop rest i

/-- Runs the sweep starting from the first sorted interval
(`const merged = [sorted[0]]`). -/
def sweepList : List Interval → List Interval
  | [] => []
  | h :: t => mergeLoop t h

/-- `mergeIntervals` from App.jsx: early return for lists of length ≤ 1,
otherwise sort by `start` and sweep with the 1-second adjacency buffer. -/
def mergeIntervals (intervals : List Interval) : List Interval :=
  if intervals.length ≤ 1 then intervals
  else sweepList (sortIntervals intervals)

/-- `calculateUniqueTime` from App.jsx:
`reduce((total, i) => total + (i.end - i.start), 0)`. -/
def calculateUniqueTime (intervals : List Interval) : ℚ :=
  intervals.foldl (fun total i => total + (i.«end» - i.start)) 0

/-- The merge operation of the spec's Coverage Merger contract,
`merge(existing, new)`: exactly how `recordWatchedSegment` uses
`mergeIntervals` (`mergeIntervals([...prev, newInterval])`). -/
def merge (S : List Interval) (I : Interval) : List Interval :=
  mergeIntervals (S ++ [I])

/-- Two intervals separated by strictly more than the ε = 1 merge tolerance:
the relation under which `mergeIntervals` keeps them apart. -/
def Separated (a b : Interval) : Prop := a.«end» + 1 < b.start

instance : DecidableRel Separated := fun a b =>
  inferInstanceAs (Decidable (a.«end» + 1 < b.start))

/-- The CoverageSet invariant of the spec (§3): adjacent intervals separated
beyond the tolerance, and every interval non-degenerate (`end > start`). -/
def CoverageSet (l : List Interval) : Prop :=
  l.Chain' Separated ∧ ∀ i ∈ l, i.start < i.«end»

instance : DecidablePred CoverageSet := fun l =>
  inferInstanceAs (Decidable (l.Chain' Separated ∧ ∀ i ∈ l, i.start < i.«end»))

/-- Sum of interval lengths, as a `List.sum`; equals `calculateUniqueTime`. -/
def lenSum (l : List Interval) : ℚ := (l.map fun i => i.«end» - i.start).sum

/-- The React state and refs of `VideoProgressTracker`, as one record:
`watchedIntervals`, `currentProgress`, `uniqueWatchedTime`, `totalDuration`,
`sessionWatchedTime` state hooks, plus the `currentWatchStart`,
`lastPosition` and `hasResumed` refs. -/
structure EngineState where
  watchedIntervals : List Interval
  currentProgress : ℚ
  uniqueWatchedTime : ℚ
  totalDuration : ℚ
  sessionWatchedTime : ℚ
  currentWatchStart : Option ℚ
  lastPosition : ℚ
  hasResumed : Bool
  deriving DecidableEq, Repr

/-- The initial component state (`useState([])`, `useState(0)`, ...,
`useRef(null)`, `useRef(0)`, `useRef(false)`). -/
def initState : EngineState :=
  { watchedIntervals := []
    currentProgress := 0
    uniqueWatchedTime := 0
    totalDuration := 0
    sessionWatchedTime := 0
    currentWatchStart := none
    lastPosition := 0
    hasResumed := false }

/-- `recordWatchedSegment` from App.jsx.  `currentTime` is
`videoRef.current.currentTime` at the moment of the call.  When a watch start
is open and the span is at least 0.5 s it is merged into the intervals and its
raw length added to the session time; `currentWatchStart` is always cleared. -/
def recordWatchedSegment (st : EngineState) (currentTime : ℚ) : EngineState :=
  match st.currentWatchStart with
  | none => st
  | some s =>
    -- `end > start && end - start >= 0.5`; 0.5 is written `mkRat 1 2`
    if currentTime > s ∧ currentTime - s ≥ mkRat 1 2 then
      { st with
        watchedIntervals := mergeIntervals (st.watchedIntervals ++ [⟨s, currentTime⟩])
        sessionWatchedTime := st.sessionWatchedTime + (currentTime - s)
        currentWatchStart := none }
    else
      { st with currentWatchStart := none }

/-- `handlePlay`: opens a watch segment at the current position. -/
def handlePlay (st : EngineState) (t : ℚ) : EngineState :=
  { st with currentWatchStart := some t }

/-- `handlePause`: closes the open segment at the current position. -/
def handlePause (st : EngineState) (t : ℚ) : EngineState :=
  recordWatchedSegment st t

/-- `handleSeeked`: closes the open segment, then reopens at the landing
position when the player is not paused. -/
def handleSeeked (st : EngineState) (t : ℚ) (paused : Bool) : EngineState :=
  if paused then recordWatchedSegment st t
  else { recordWatchedSegment st t with currentWatchStart := some t }

/-- `handleTimeUpdate`: a jump of more than 2 seconds against `lastPosition`
is treated as a seek — the open segment is closed (at the current, post-jump
position, since `recordWatchedSegment` reads `videoRef.current.currentTime`)
and a new segment opens there if the player is not paused; the local
`timeDiff`/`st'` constants of the source are inlined.  `lastPosition` is
always refreshed. -/
def handleTimeUpdate (st : EngineState) (t : ℚ) (paused : Bool) : EngineState :=
  if |t - st.lastPosition| > 2 then
    if paused then { recordWatchedSegment st t with lastPosition := t }
    else { recordWatchedSegment st t with currentWatchStart := some t, lastPosition := t }
  else
    { st with lastPosition := t }

/-- `handleEnded`: closes the open segment at the final position. -/
def handleEnded (st : EngineState) (t : ℚ) : EngineState :=
  recordWatchedSegment st t

/-- `handleLoadedMetadata`: `setTotalDuration(videoRef.current.duration)` —
unconditional. -/
def handleLoadedMetadata (st : EngineState) (duration : ℚ) : EngineState :=
  { st with totalDuration := duration }

/-- The display-update effect: recomputes `uniqueWatchedTime` and, only when
`totalDuration > 0`, the progress percentage. -/
def updateDisplay (st : EngineState) : EngineState :=
  { st with
    uniqueWatchedTime := calculateUniqueTime st.watchedIntervals
    currentProgress :=
      if 0 < st.totalDuration then
        calculateUniqueTime st.watchedIntervals / st.totalDuration * 100
      else st.currentProgress }

/-- The object serialized by `saveProgressToStorage` (`progressData`). -/
structure PersistedRecord where
  intervals : List Interval
  lastPosition : ℚ
  totalDuration : ℚ
  sessionTime : ℚ
  timestamp : ℚ
  progressPercentage : ℚ
  deriving DecidableEq, Repr

/-- `saveProgressToStorage`: serializes the current state.  `currentTime` is
`videoRef.current?.currentTime || 0` and `now` is `Date.now()`. -/
def saveProgressToStorage (st : EngineState) (currentTime now : ℚ) : PersistedRecord :=
  { intervals := st.watchedIntervals
    lastPosition := currentTime
    totalDuration := st.totalDuration
    sessionTime := st.sessionWatchedTime
    timestamp := now
    progressPercentage := st.currentProgress }

/-- `loadProgress` applied to a successfully parsed record: installs
`data.intervals` and `data.sessionTime` verbatim, and — only when
`data.lastPosition` is truthy (nonzero) and the one-shot `hasResumed` flag is
still unset — seeks to the saved position and sets the flag.  The record's
`totalDuration` and `progressPercentage` fields are never read. -/
def loadProgress (st : EngineState) (r : PersistedRecord) : EngineState :=
  let st₁ := { st with watchedIntervals := r.intervals, sessionWatchedTime := r.sessionTime }
  if r.lastPosition ≠ 0 ∧ st.hasResumed = false then
    { st₁ with lastPosition := r.lastPosition, hasResumed := true }
  else st₁

/-- The media-player events consumed by the component. -/
inductive PlayerEvent where
  | play (t : ℚ)
  | pause (t : ℚ)
  | seeked (t : ℚ) (paused : Bool)
  | timeupdate (t : ℚ) (paused : Bool)
  | ended (t : ℚ)
  | metadata (d : ℚ)

/-- Dispatch of a player event to its handler. -/
def handleEvent (st : EngineState) : PlayerEvent → EngineState
  | .play t => handlePlay st t
  | .pause t => handlePause st t
  | .seeked t paused => handleSeeked st t paused
  | .timeupdate t paused => handleTimeUpdate st t paused
  | .ended t => handleEnded st t
  | .metadata d => handleLoadedMetadata st d

/-- One engine step: the event handler followed by the display effect, since
React re-runs the display effect after every state change. -/
def engineStep (st : EngineState) (e : PlayerEvent) : EngineState :=
  updateDisplay (handleEvent st e)

/-- Events a real media element can deliver for a video of duration `D`:
positions lie in `[0, D]` and metadata reports the media duration. -/
def ValidEvent (D : ℚ) : PlayerEvent → Prop
  | .play t => 0 ≤ t ∧ t ≤ D
  | .pause t => 0 ≤ t ∧ t ≤ D
  | .seeked t _ => 0 ≤ t ∧ t ≤ D
  | .timeupdate t _ => 0 ≤ t ∧ t ≤ D
  | .ended t => 0 ≤ t ∧ t ≤ D
  | .metadata d => d = D

/-- Engine states reachable from the initial state through valid player
events. -/
inductive Reachable (D : ℚ) : EngineState → Prop
  | init : Reachable D initState
  | next {st : EngineState} {e : PlayerEvent} :
      Reachable D st → ValidEvent D e → Reachable D (engineStep st e)

/-- The inductive invariant of reachable states. -/
def Inv (D : ℚ) (st : EngineState) : Prop :=
  (∀ i ∈ st.watchedIntervals, 0 ≤ i.start ∧ i.start < i.«end» ∧ i.«end» ≤ D) ∧
  st.watchedIntervals.Chain' Separated ∧
  (st.totalDuration = 0 ∨ st.totalDuration = D) ∧
  (st.currentProgress =
    if 0 < st.totalDuration then
      calculateUniqueTime st.watchedIntervals / st.totalDuration * 100
    else 0) ∧
  (∀ s, st.currentWatchStart = some s → 0 ≤ s ∧ s ≤ D)

theorem foldl_add_eq (l : List Interval) (a : ℚ) :
    l.foldl (fun total i => total + (i.«end» - i.start)) a = a + lenSum l := by
  induction l generalizing a with
  | nil => simp [lenSum]
  | cons i t ih => simp only [List.foldl_cons, ih, lenSum, List.map_cons, List.sum_cons]; ring

theorem calculateUniqueTime_eq_lenSum (l : List Interval) :
    calculateUniqueTime l = lenSum l := by
  simpa [calculateUniqueTime] using foldl_add_eq l 0

theorem lenSum_append (l₁ l₂ : List Interval) :
    lenSum (l₁ ++ l₂) = lenSum l₁ + lenSum l₂ := by
  simp [lenSum]

theorem lenSum_cons (i : Interval) (l : List Interval) :
    lenSum (i :: l) = (i.«end» - i.start) + lenSum l := by
  simp [lenSum]

theorem insertSorted_perm (a : Interval) (l : List Interval) :
    List.Perm (insertSorted a l) (a :: l) := by
  induction l with
  | nil => exact List.Perm.refl _
  | cons b t ih =>
    by_cases h : a.start ≤ b.start
    · rw [insertSorted, if_pos h]
    · rw [insertSorted, if_neg h]
      exact (List.Perm.cons b ih).trans (List.Perm.swap a b t)

theorem sortIntervals_perm (l : List Interval) : List.Perm (sortIntervals l) l := by
  induction l with
  | nil => exact List.Perm.refl _
  | cons a t ih =>
    exact (insertSorted_perm a (sortIntervals t)).trans (List.Perm.cons a ih)

theorem insertSorted_pairwise (a : Interval) (l : List Interval)
    (h : l.Pairwise fun x y => x.start ≤ y.start) :
    (insertSorted a l).Pairwise fun x y => x.start ≤ y.start := by
  induction l with
  | nil => simp [insertSorted]
  | cons b t ih =>
    rcases List.pairwise_cons.mp h with ⟨hb, ht⟩
    by_cases hab : a.start ≤ b.start
    · rw [insertSorted, if_pos hab]
      refine List.pairwise_cons.mpr ⟨?_, h⟩
      intro y hy
      rcases List.mem_cons.mp hy with rfl | hy
      · exact hab
      · exact le_trans hab (hb _ hy)
    · rw [insertSorted, if_neg hab]
      refine List.pairwise_cons.mpr ⟨?_, ih ht⟩
      intro y hy
      have hy' := (insertSorted_perm a t).mem_iff.mp hy
      rcases List.mem_cons.mp hy' with rfl | hy'
      · exact le_of_not_le hab
      · exact hb _ hy'

theorem sortIntervals_pairwise (l : List Interval) :
    (sortIntervals l).Pairwise fun x y => x.start ≤ y.start := by
  induction l with
  | nil => simp [sortIntervals]
  | cons a t ih => exact insertSorted_pairwise a (sortIntervals t) ih

theorem mergeLoop_head (l : List Interval) (cur : Interval) :
    ∃ h t, mergeLoop l cur = h :: t ∧ h.start = cur.start ∧ cur.«end» ≤ h.«end» := by
  induction l generalizing cur with
  | nil => exact ⟨cur, [], rfl, rfl, le_refl _⟩
  | cons i rest ih =>
    by_cases hc : i.start ≤ cur.«end» + 1
    · rcases ih ⟨cur.start, max cur.«end» i.«end»⟩ with ⟨h, t, he, hs, hE⟩
      exact ⟨h, t, by rw [mergeLoop, if_pos hc, he], hs,
        le_trans (le_max_left _ _) hE⟩
    · exact ⟨cur, mergeLoop rest i, by rw [mergeLoop, if_neg hc], rfl, le_refl _⟩

theorem mergeLoop_ne_nil (l : List Interval) (cur : Interval) :
    mergeLoop l cur ≠ [] := by
  rcases mergeLoop_head l cur with ⟨h, t, he, _, _⟩
  simp [he]

theorem mergeLoop_chain' (l : List Interval) (cur : Interval) :
    (mergeLoop l cur).Chain' Separated := by
  induction l generalizing cur with
  | nil => simp [mergeLoop]
  | cons i rest ih =>
    by_cases hc : i.start ≤ cur.«end» + 1
    · rw [mergeLoop, if_pos hc]; exact ih _
    · rw [mergeLoop, if_neg hc]
      rcases mergeLoop_head rest i with ⟨h, t, he, hs, _⟩
      rw [he]
      refine List.chain'_cons.mpr ⟨?_, he ▸ ih i⟩
      show cur.«end» + 1 < h.start
      rw [hs]
      exact lt_of_not_le hc

theorem mergeLoop_anchored (l : List Interval) (cur : Interval) :
    ∀ J ∈ mergeLoop l cur,
      (∃ x ∈ cur :: l, J.start = x.start ∧ x.«end» ≤ J.«end») ∧
      (∃ y ∈ cur :: l, J.«end» = y.«end») := by
  induction l generalizing cur with
  | nil =>
    intro J hJ
    simp only [mergeLoop, List.mem_singleton] at hJ
    subst hJ
    exact ⟨⟨J, by simp, rfl, le_refl _⟩, ⟨J, by simp, rfl⟩⟩
  | cons i rest ih =>
    intro J hJ
    by_cases hc : i.start ≤ cur.«end» + 1
    · rw [mergeLoop, if_pos hc] at hJ
      rcases ih _ J hJ with ⟨⟨x, hx, hxs, hxe⟩, ⟨y, hy, hye⟩⟩
      constructor
      · rcases List.mem_cons.mp hx with rfl | hx
        · exact ⟨cur, by simp, hxs, le_trans (le_max_left _ _) hxe⟩
        · exact ⟨x, by simp [hx], hxs, hxe⟩
      · rcases List.mem_cons.mp hy with rfl | hy
        · rcases max_choice cur.«end» i.«end» with hm | hm
          · exact ⟨cur, by simp, by rw [hye]; exact hm⟩
          · exact ⟨i, by simp, by rw [hye]; exact hm⟩
        · exact ⟨y, by simp [hy], hye⟩
    · rw [mergeLoop, if_neg hc] at hJ
      rcases List.mem_cons.mp hJ with rfl | hJ
      · exact ⟨⟨J, by simp, rfl, le_refl _⟩, ⟨J, by simp, rfl⟩⟩
      · rcases ih _ J hJ with ⟨⟨x, hx, hxs, hxe⟩, ⟨y, hy, hye⟩⟩
        exact ⟨⟨x, by rcases List.mem_cons.mp hx with rfl | hx <;> simp [hx], hxs, hxe⟩,
          ⟨y, by rcases List.mem_cons.mp hy with rfl | hy <;> simp [hy], hye⟩⟩

theorem mergeLoop_covers (l : List Interval) (cur : Interval)
    (hcur : ∀ y ∈ l, cur.start ≤ y.start)
    (hsort : l.Pairwise fun x y => x.start ≤ y.start) :
    ∀ x ∈ cur :: l, ∃ J ∈ mergeLoop l cur, J.start ≤ x.start ∧ x.«end» ≤ J.«end» := by
  induction l generalizing cur with
  | nil =>
    intro x hx
    simp only [List.mem_singleton] at hx
    subst hx
    exact ⟨x, by simp [mergeLoop], le_refl _, le_refl _⟩
  | cons i rest ih =>
    rcases List.pairwise_cons.mp hsort with ⟨hi, hrest⟩
    intro x hx
    by_cases hc : i.start ≤ cur.«end» + 1
    · rw [mergeLoop, if_pos hc]
      have hcur' : ∀ y ∈ rest, (⟨cur.start, max cur.«end» i.«end»⟩ : Interval).start ≤ y.start :=
        fun y hy => hcur y (List.mem_cons_of_mem _ hy)
      obtain ⟨J, hJ, hJs, hJe⟩ :=
        ih ⟨cur.start, max cur.«end» i.«end»⟩ hcur' hrest
          ⟨cur.start, max cur.«end» i.«end»⟩ (List.mem_cons_self _ _)
      rcases List.mem_cons.mp hx with hx | hx
      · exact ⟨J, hJ, by rw [hx]; exact hJs,
          by rw [hx]; exact le_trans (le_max_left _ _) hJe⟩
      rcases List.mem_cons.mp hx with hx | hx
      · refine ⟨J, hJ, by rw [hx]; exact le_trans hJs (hcur i (List.mem_cons_self _ _)), ?_⟩
        rw [hx]
        exact le_trans (le_max_right _ _) hJe
      · exact ih _ hcur' hrest x (List.mem_cons_of_mem _ hx)
    · rw [mergeLoop, if_neg hc]
      rcases List.mem_cons.mp hx with hx | hx
      · exact ⟨cur, by simp, by rw [hx], by rw [hx]⟩
      · rcases ih i hi hrest x hx with ⟨J, hJ, hJs, hJe⟩
        exact ⟨J, by simp [hJ], hJs, hJe⟩

theorem mergeLoop_pairwise (l : List Interval) (cur : Interval)
    (hcur : ∀ y ∈ l, cur.start ≤ y.start)
    (hsort : l.Pairwise fun x y => x.start ≤ y.start) :
    (mergeLoop l cur).Pairwise fun x y => x.start ≤ y.start := by
  induction l generalizing cur with
  | nil => simp [mergeLoop]
  | cons i rest ih =>
    rcases List.pairwise_cons.mp hsort with ⟨hi, hrest⟩
    by_cases hc : i.start ≤ cur.«end» + 1
    · rw [mergeLoop, if_pos hc]
      exact ih _ (fun y hy => hcur y (by simp [hy])) hrest
    · rw [mergeLoop, if_neg hc]
      refine List.pairwise_cons.mpr ⟨?_, ih i hi hrest⟩
      intro J hJ
      rcases (mergeLoop_anchored rest i J hJ).1 with ⟨x, hx, hxs, _⟩
      rw [hxs]
      rcases List.mem_cons.mp hx with rfl | hx
      · exact hcur _ (by simp)
      · exact hcur _ (by simp [hx])

theorem mergeIntervals_chain' (l : List Interval) :
    (mergeIntervals l).Chain' Separated := by
  unfold mergeIntervals
  by_cases h : l.length ≤ 1
  · rw [if_pos h]
    match l, h with
    | [], _ => exact List.chain'_nil
    | [x], _ => exact List.chain'_singleton x
  · rw [if_neg h]
    cases hsort : sortIntervals l with
    | nil => exact List.chain'_nil
    | cons hd t =>
      rw [sweepList]
      exact mergeLoop_chain' t hd

theorem mergeIntervals_pairwise (l : List Interval) :
    (mergeIntervals l).Pairwise fun x y => x.start ≤ y.start := by
  unfold mergeIntervals
  by_cases h : l.length ≤ 1
  · rw [if_pos h]
    match l, h with
    | [], _ => exact List.Pairwise.nil
    | [x], _ => exact List.pairwise_singleton _ x
  · rw [if_neg h]
    have hs := sortIntervals_pairwise l
    cases hsort : sortIntervals l with
    | nil => exact List.Pairwise.nil
    | cons hd t =>
      rw [hsort] at hs
      rw [sweepList]
      rcases List.pairwise_cons.mp hs with ⟨hh, ht⟩
      exact mergeLoop_pairwise t hd hh ht

theorem mergeIntervals_anchored (l : List Interval) :
    ∀ J ∈ mergeIntervals l,
      (∃ x ∈ l, J.start = x.start ∧ x.«end» ≤ J.«end») ∧
      (∃ y ∈ l, J.«end» = y.«end») := by
  intro J hJ
  unfold mergeIntervals at hJ
  by_cases h : l.length ≤ 1
  · rw [if_pos h] at hJ
    exact ⟨⟨J, hJ, rfl, le_refl _⟩, ⟨J, hJ, rfl⟩⟩
  · rw [if_neg h] at hJ
    have hperm := sortIntervals_perm l
    cases hsort : sortIntervals l with
    | nil => rw [hsort] at hJ; exact absurd hJ (List.not_mem_nil J)
    | cons hd t =>
      rw [hsort] at hJ hperm
      rw [sweepList] at hJ
      rcases mergeLoop_anchored t hd J hJ with ⟨⟨x, hx, hxs, hxe⟩, ⟨y, hy, hye⟩⟩
      exact ⟨⟨x, hperm.mem_iff.mp hx, hxs, hxe⟩, ⟨y, hperm.mem_iff.mp hy, hye⟩⟩

theorem mergeIntervals_covers (l : List Interval) :
    ∀ x ∈ l, ∃ J ∈ mergeIntervals l, J.start ≤ x.start ∧ x.«end» ≤ J.«end» := by
  intro x hx
  unfold mergeIntervals
  by_cases h : l.length ≤ 1
  · rw [if_pos h]
    exact ⟨x, hx, le_refl _, le_refl _⟩
  · rw [if_neg h]
    have hperm := sortIntervals_perm l
    have hs := sortIntervals_pairwise l
    have hx' : x ∈ sortIntervals l := hperm.mem_iff.mpr hx
    cases hsort : sortIntervals l with
    | nil => rw [hsort] at hx'; exact absurd hx' (List.not_mem_nil x)
    | cons hd t =>
      rw [hsort] at hs hx'
      rw [sweepList]
      rcases List.pairwise_cons.mp hs with ⟨hh, ht⟩
      exact mergeLoop_covers t hd hh ht x hx'

theorem mergeIntervals_ne_nil (l : List Interval) (h : l ≠ []) :
    mergeIntervals l ≠ [] := by
  unfold mergeIntervals
  by_cases hl : l.length ≤ 1
  · rw [if_pos hl]; exact h
  · rw [if_neg hl]
    have hperm := sortIntervals_perm l
    cases hsort : sortIntervals l with
    | nil =>
      rw [hsort] at hperm
      exact absurd (List.Perm.nil_eq hperm).symm h
    | cons hd t =>
      rw [sweepList]
      exact mergeLoop_ne_nil t hd

/-- C1: for every list of intervals, the output of `mergeIntervals` is sorted
ascending by `start`, and every adjacent pair satisfies `i.end < i+1.start`
with a gap strictly greater than the merge tolerance ε = 1 — the CoverageSet
invariant holds after every merge, regardless of insertion order. -/
theorem mergeIntervals_invariant (l : List Interval) :
    ((mergeIntervals l).Pairwise fun x y => x.start ≤ y.start) ∧
    ((mergeIntervals l).Chain' fun a b => a.«end» < b.start ∧ 1 < b.start - a.«end») := by
  refine ⟨mergeIntervals_pairwise l, ?_⟩
  have hc := mergeIntervals_chain' l
  exact List.Chain'.imp
    (fun a b hab => ⟨lt_trans (lt_add_of_pos_right _ one_pos) hab, by
      have : a.«end» + 1 < b.start := hab
      linarith⟩) hc

theorem sep_all_of_chain' (a : Interval) (t : List Interval)
    (hc : (a :: t).Chain' Separated)
    (hv : ∀ i ∈ a :: t, i.start < i.«end») :
    ∀ c ∈ t, Separated a c := by
  induction t generalizing a with
  | nil =>
    intro c hcm
    exact absurd hcm (List.not_mem_nil c)
  | cons b t' ih =>
    intro c hcm
    have hab : Separated a b := (List.chain'_cons.mp hc).1
    rcases List.mem_cons.mp hcm with rfl | hcm
    · exact hab
    · have hbc : Separated b c :=
        ih b (List.chain'_cons.mp hc).2
          (fun i hi => hv i (List.mem_cons_of_mem _ hi)) c hcm
      have hbv : b.start < b.«end» := hv b (by simp)
      have h1 : a.«end» + 1 < b.start := hab
      have h2 : b.«end» + 1 < c.start := hbc
      show a.«end» + 1 < c.start
      linarith

theorem pairwise_sep_of_chain' (l : List Interval)
    (hc : l.Chain' Separated) (hv : ∀ i ∈ l, i.start < i.«end») :
    l.Pairwise Separated := by
  induction l with
  | nil => exact List.Pairwise.nil
  | cons a t ih =>
    refine List.pairwise_cons.mpr ⟨sep_all_of_chain' a t hc hv, ?_⟩
    exact ih ((List.chain'_cons'.mp hc).2) (fun i hi => hv i (List.mem_cons_of_mem _ hi))

theorem pairwise_lt_of_chain' (l : List Interval)
    (hc : l.Chain' Separated) (hv : ∀ i ∈ l, i.start < i.«end») :
    l.Pairwise fun x y => x.start < y.start := by
  refine (pairwise_sep_of_chain' l hc hv).imp_of_mem ?_
  intro a b ha _ hab
  have h1 : a.start < a.«end» := hv a ha
  have h2 : a.«end» + 1 < b.start := hab
  linarith

/-- A non-strictly sorted permutation of a strictly sorted list equals it. -/
theorem eq_of_perm_sorted_strict (A T : List Interval)
    (hperm : List.Perm A T)
    (hA : A.Pairwise fun x y => x.start ≤ y.start)
    (hT : T.Pairwise fun x y => x.start < y.start) : A = T := by
  have hmapT : (T.map Interval.start).Pairwise (· < ·) := List.pairwise_map.mpr hT
  have hndT : (T.map Interval.start).Nodup := hmapT.imp ne_of_lt
  have hndA : (A.map Interval.start).Nodup := ((hperm.map Interval.start).nodup_iff).mpr hndT
  have hneA : A.Pairwise fun x y => x.start ≠ y.start := List.pairwise_map.mp hndA
  have hA' : A.Pairwise fun x y => x.start < y.start :=
    (hA.and hneA).imp fun h => lt_of_le_of_ne h.1 h.2
  haveI : IsAntisymm Interval fun x y => x.start < y.start :=
    ⟨fun a b h1 h2 => absurd (lt_trans h1 h2) (lt_irrefl _)⟩
  exact List.eq_of_perm_of_sorted hperm hA' hT

/-- Any sorted permutation of `T ++ [I]` with `T` strictly sorted is `T` with
`I` inserted at its sorted position. -/
theorem sorted_perm_decomp (T : List Interval) (I : Interval) (M : List Interval)
    (hT : T.Pairwise fun x y => x.start < y.start)
    (hperm : List.Perm M (T ++ [I]))
    (hsort : M.Pairwise fun x y => x.start ≤ y.start) :
    ∃ A B, M = A ++ I :: B ∧ T = A ++ B ∧
      (∀ a ∈ A, a.start ≤ I.start) ∧ (∀ b ∈ B, I.start ≤ b.start) := by
  have hI : I ∈ M := hperm.mem_iff.mpr (by simp)
  obtain ⟨A, B, hM⟩ := List.append_of_mem hI
  subst hM
  have h1 : List.Perm (A ++ I :: B) (I :: (A ++ B)) := List.perm_middle
  have h2 : List.Perm (I :: (A ++ B)) (T ++ [I]) := h1.symm.trans hperm
  have h3 : List.Perm (T ++ [I]) (I :: T) := List.perm_append_singleton I T
  have hAB : List.Perm (A ++ B) T := (h2.trans h3).cons_inv
  rcases List.pairwise_append.mp hsort with ⟨hA, hIB, hcross⟩
  rcases List.pairwise_cons.mp hIB with ⟨hIb, hB⟩
  have hABsorted : (A ++ B).Pairwise fun x y => x.start ≤ y.start :=
    List.pairwise_append.mpr ⟨hA, hB, fun a ha b hb =>
      le_trans (hcross a ha I (by simp)) (hIb b hb)⟩
  have hABT : A ++ B = T := eq_of_perm_sorted_strict _ _ hAB hABsorted hT
  exact ⟨A, B, rfl, hABT.symm, fun a ha => hcross a ha I (by simp), hIb⟩

theorem dropLast_append_getLast_cons (l : List Interval) (h : l ≠ []) (ys : List Interval) :
    l.dropLast ++ l.getLast h :: ys = l ++ ys := by
  conv_rhs => rw [← List.dropLast_append_getLast h]
  simp

/-- Sweeping a list that is already a separated chain returns it unchanged. -/
theorem mergeLoop_of_chain' (cur : Interval) (xs : List Interval)
    (h : (cur :: xs).Chain' Separated) : mergeLoop xs cur = cur :: xs := by
  induction xs generalizing cur with
  | nil => rfl
  | cons b t ih =>
    have hsep : Separated cur b := (List.chain'_cons.mp h).1
    have hnot : ¬ b.start ≤ cur.«end» + 1 := not_le_of_lt hsep
    rw [mergeLoop, if_neg hnot, ih b (List.chain'_cons.mp h).2]

/-- The sweep walks through a leading separated chain untouched. -/
theorem mergeLoop_append_chain (cur : Interval) (xs ys : List Interval)
    (h : (cur :: xs).Chain' Separated) :
    mergeLoop (xs ++ ys) cur =
      (cur :: xs).dropLast ++ mergeLoop ys ((cur :: xs).getLast (List.cons_ne_nil _ _)) := by
  induction xs generalizing cur with
  | nil => simp
  | cons b t ih =>
    have hsep : Separated cur b := (List.chain'_cons.mp h).1
    have hnot : ¬ b.start ≤ cur.«end» + 1 := not_le_of_lt hsep
    rw [List.cons_append, mergeLoop, if_neg hnot, ih b (List.chain'_cons.mp h).2]
    simp

theorem sweepList_append_chain (C ys : List Interval) (hne : C ≠ [])
    (h : C.Chain' Separated) :
    sweepList (C ++ ys) = C.dropLast ++ mergeLoop ys (C.getLast hne) := by
  cases C with
  | nil => exact absurd rfl hne
  | cons c cs =>
    rw [List.cons_append, sweepList]
    exact mergeLoop_append_chain c cs ys h

/-- An interval covered by the head of a separated chain is absorbed into it
without changing the chain. -/
theorem mergeLoop_absorb_into (J I : Interval) (B : List Interval)
    (hIs : I.start ≤ I.«end») (hJe : I.«end» ≤ J.«end»)
    (hch : (J :: B).Chain' Separated) :
    mergeLoop (I :: B) J = J :: B := by
  have hcond : I.start ≤ J.«end» + 1 := by linarith
  rw [mergeLoop, if_pos hcond, max_eq_left hJe]
  exact mergeLoop_of_chain' J B hch

/-- An interval that ties the start of the chain head and is covered by it is
absorbed into the head. -/
theorem mergeLoop_absorb_head (I J : Interval) (B : List Interval)
    (hJsI : J.start = I.start) (hIs : I.start ≤ I.«end») (hJe : I.«end» ≤ J.«end»)
    (hch : (J :: B).Chain' Separated) :
    mergeLoop (J :: B) I = J :: B := by
  have hcond : J.start ≤ I.«end» + 1 := by rw [hJsI]; linarith
  rw [mergeLoop, if_pos hcond, max_eq_right hJe, ← hJsI]
  exact mergeLoop_of_chain' J B hch

/-- Core absorption lemma: sweeping any sorted permutation of `T ++ [I]`,
where `T` is a valid separated chain containing an interval that covers `I`,
returns `T` unchanged. -/
theorem sweep_absorbs (T : List Interval) (I : Interval) (M : List Interval)
    (hchain : T.Chain' Separated)
    (hvalid : ∀ i ∈ T, i.start < i.«end»)
    (hIv : I.start ≤ I.«end»)
    (hcov : ∃ J ∈ T, J.start ≤ I.start ∧ I.«end» ≤ J.«end»)
    (hperm : List.Perm M (T ++ [I]))
    (hsort : M.Pairwise fun x y => x.start ≤ y.start) :
    sweepList M = T := by
  obtain ⟨J, hJT, hJs, hJe⟩ := hcov
  have hTlt : T.Pairwise (fun x y => x.start < y.start) := pairwise_lt_of_chain' T hchain hvalid
  obtain ⟨A, B, hM, hT, hAle, hBge⟩ := sorted_perm_decomp T I M hTlt hperm hsort
  subst hM
  subst hT
  have hsepT : (A ++ B).Pairwise Separated := pairwise_sep_of_chain' _ hchain hvalid
  rcases List.mem_append.mp hJT with hJA | hJB
  · -- J occurs in the prefix A: it must be the last element of A
    obtain ⟨A₁, A₂, hA⟩ := List.append_of_mem hJA
    subst hA
    cases A₂ with
    | cons x A₃ =>
      exfalso
      have hsepA : (A₁ ++ J :: x :: A₃).Pairwise Separated :=
        (List.pairwise_append.mp hsepT).1
      have hsepJx : Separated J x :=
        (List.pairwise_cons.mp (List.pairwise_append.mp hsepA).2.1).1 x (by simp)
      have hxle : x.start ≤ I.start := hAle x (by simp)
      have h1 : J.«end» + 1 < x.start := hsepJx
      linarith
    | nil =>
      have hne : A₁ ++ [J] ≠ [] := by simp
      have hchA : (A₁ ++ [J]).Chain' Separated := (List.chain'_append.mp hchain).1
      rw [List.append_assoc, List.singleton_append] at hchain
      have hchJB : (J :: B).Chain' Separated := (List.chain'_append.mp hchain).2.1
      rw [sweepList_append_chain (A₁ ++ [J]) (I :: B) hne hchA]
      have hgl : (A₁ ++ [J]).getLast hne = J := by simp
      have hdl : (A₁ ++ [J]).dropLast = A₁ := by simp
      rw [hgl, hdl, mergeLoop_absorb_into J I B hIv hJe hchJB]
      simp
  · -- J occurs in the suffix B: it must be its head, with a tied start
    obtain ⟨B₁, B₂, hB⟩ := List.append_of_mem hJB
    subst hB
    have hJsI : J.start = I.start := le_antisymm hJs (hBge J (by simp))
    cases B₁ with
    | cons x B₃ =>
      exfalso
      have hxge : I.start ≤ x.start := hBge x (by simp)
      have hBlt : (x :: (B₃ ++ J :: B₂)).Pairwise (fun u v => u.start < v.start) := by
        have := (List.pairwise_append.mp hTlt).2.1
        simpa using this
      have hxJ : x.start < J.start :=
        (List.pairwise_cons.mp hBlt).1 J (by simp)
      rw [hJsI] at hxJ
      linarith
    | nil =>
      rw [List.nil_append] at hchain hBge hJT hsepT ⊢
      cases A with
      | nil =>
        rw [List.nil_append, sweepList,
          mergeLoop_absorb_head I J B₂ hJsI hIv hJe hchain]
        rfl
      | cons a A' =>
        have hne : a :: A' ≠ [] := List.cons_ne_nil _ _
        have hchA : (a :: A').Chain' Separated := (List.chain'_append.mp hchain).1
        rw [sweepList_append_chain (a :: A') (I :: J :: B₂) hne hchA]
        have hchJB : (J :: B₂).Chain' Separated := (List.chain'_append.mp hchain).2.1
        have hsepLJ : Separated ((a :: A').getLast hne) J := by
          have hrel := (List.chain'_append.mp hchain).2.2
          exact hrel _ (by rw [List.getLast?_eq_getLast _ hne]; rfl) J rfl
        have hnot : ¬ I.start ≤ ((a :: A').getLast hne).«end» + 1 := by
          have h1 : ((a :: A').getLast hne).«end» + 1 < J.start := hsepLJ
          rw [hJsI] at h1
          exact not_le_of_lt h1
        rw [mergeLoop, if_neg hnot, mergeLoop_absorb_head I J B₂ hJsI hIv hJe hchJB]
        rw [dropLast_append_getLast_cons _ hne]

/-- C2: merging is idempotent — for every CoverageSet `S` and non-degenerate
interval `I`, `merge(merge(S, I), I) = merge(S, I)`; in particular an interval
fully contained in an existing one leaves the set unchanged. -/
theorem merge_idempotent (S : List Interval) (I : Interval)
    (hS : CoverageSet S) (hI : I.start < I.«end») :
    merge (merge S I) I = merge S I := by
  have hTchain : (merge S I).Chain' Separated := mergeIntervals_chain' (S ++ [I])
  have hTvalid : ∀ i ∈ merge S I, i.start < i.«end» := by
    intro i hiT
    obtain ⟨⟨x, hx, hxs, hxe⟩, _⟩ := mergeIntervals_anchored (S ++ [I]) i hiT
    have hxv : x.start < x.«end» := by
      rcases List.mem_append.mp hx with hx | hx
      · exact hS.2 x hx
      · rw [List.mem_singleton] at hx
        subst hx
        exact hI
    rw [hxs]
    exact lt_of_lt_of_le hxv hxe
  have hcov : ∃ J ∈ merge S I, J.start ≤ I.start ∧ I.«end» ≤ J.«end» :=
    mergeIntervals_covers (S ++ [I]) I (by simp)
  have hTne : merge S I ≠ [] := mergeIntervals_ne_nil _ (by simp)
  show mergeIntervals (merge S I ++ [I]) = merge S I
  have hlen : ¬ (merge S I ++ [I]).length ≤ 1 := by
    cases hmm : merge S I with
    | nil => exact absurd hmm hTne
    | cons a t => simp [List.length_append]
  unfold mergeIntervals
  rw [if_neg hlen]
  exact sweep_absorbs (merge S I) I _ hTchain hTvalid (le_of_lt hI) hcov
    (sortIntervals_perm _) (sortIntervals_pairwise _)

/-- Witness for C2 at `S = {[0,10]}`, `I = [2,5]` (scenario C: an interval
fully contained in existing coverage). -/
theorem merge_idempotent_witness :
    (CoverageSet [⟨0, 10⟩] ∧ (⟨2, 5⟩ : Interval).start < (⟨2, 5⟩ : Interval).«end») ∧
    merge (merge [⟨0, 10⟩] ⟨2, 5⟩) ⟨2, 5⟩ = merge [⟨0, 10⟩] ⟨2, 5⟩ := by
  have hcs : CoverageSet [⟨0, 10⟩] := by
    constructor
    · exact List.chain'_singleton _
    · intro i hi
      rw [List.mem_singleton] at hi
      subst hi
      norm_num
  exact ⟨⟨hcs, by norm_num⟩, merge_idempotent [⟨0, 10⟩] ⟨2, 5⟩ hcs (by norm_num)⟩

/-- Sweeping a valid separated chain `B` from an arbitrary current interval
adds at most one tolerance unit of phantom coverage. -/
theorem mergeLoop_sum_le (B : List Interval) (cur : Interval)
    (hchain : B.Chain' Separated)
    (hvalid : ∀ b ∈ B, b.start < b.«end») :
    lenSum (mergeLoop B cur) ≤ (cur.«end» - cur.start) + lenSum B + 1 := by
  induction B generalizing cur with
  | nil =>
    rw [mergeLoop]
    simp [lenSum]
  | cons b rest ih =>
    have hrest : rest.Chain' Separated := (List.chain'_cons'.mp hchain).2
    have hbv : b.start < b.«end» := hvalid b (by simp)
    by_cases hc : b.start ≤ cur.«end» + 1
    · rw [mergeLoop, if_pos hc]
      rcases max_choice cur.«end» b.«end» with hm | hm
      · rw [hm]
        have hih := ih ⟨cur.start, cur.«end»⟩ hrest
          (fun x hx => hvalid x (List.mem_cons_of_mem _ hx))
        dsimp only at hih
        rw [lenSum_cons]
        linarith
      · rw [hm]
        have hch' : ((⟨cur.start, b.«end»⟩ : Interval) :: rest).Chain' Separated := by
          cases rest with
          | nil => simp
          | cons r rest' =>
            refine List.chain'_cons.mpr ⟨?_, (List.chain'_cons.mp hchain).2⟩
            exact (List.chain'_cons.mp hchain).1
        rw [mergeLoop_of_chain' _ rest hch', lenSum_cons, lenSum_cons]
        dsimp only
        linarith
    · rw [mergeLoop, if_neg hc, lenSum_cons, lenSum_cons]
      have hih := ih b hrest (fun x hx => hvalid x (List.mem_cons_of_mem _ hx))
      linarith

/-- C3 (amended): the unique covered duration after a merge is bounded by the
previous duration plus the new interval's length plus `2ε` (`ε = 1`), because
the tolerance can bridge an uncovered gap of up to `ε` at each side of the
new interval; when the new interval is disjoint beyond tolerance from all of
`S` the durations add exactly. -/
theorem coverage_bound (S : List Interval) (I : Interval)
    (hS : CoverageSet S) (hI : I.start < I.«end») :
    calculateUniqueTime (merge S I) ≤
        calculateUniqueTime S + (I.«end» - I.start) + 2 ∧
    ((∀ K ∈ S, I.start > K.«end» + 1 ∨ K.start > I.«end» + 1) →
      calculateUniqueTime (merge S I) =
        calculateUniqueTime S + (I.«end» - I.start)) := by
  rw [calculateUniqueTime_eq_lenSum, calculateUniqueTime_eq_lenSum]
  cases S with
  | nil =>
    have hmerge : merge [] I = [I] := rfl
    rw [hmerge]
    constructor
    · simp [lenSum]
    · intro _
      simp [lenSum]
  | cons s₀ S' =>
    have hlen : ¬ ((s₀ :: S') ++ [I]).length ≤ 1 := by
      simp [List.length_append]
    have hmerge : merge (s₀ :: S') I = sweepList (sortIntervals ((s₀ :: S') ++ [I])) := by
      unfold merge mergeIntervals
      rw [if_neg hlen]
    obtain ⟨A, B, hM, hT, hAle, hBge⟩ :=
      sorted_perm_decomp (s₀ :: S') I (sortIntervals ((s₀ :: S') ++ [I]))
        (pairwise_lt_of_chain' _ hS.1 hS.2)
        (sortIntervals_perm _) (sortIntervals_pairwise _)
    rw [hmerge, hM]
    have hchS : (A ++ B).Chain' Separated := hT ▸ hS.1
    have hvS : ∀ i ∈ A ++ B, i.start < i.«end» := hT ▸ hS.2
    have hchB : B.Chain' Separated := (List.chain'_append.mp hchS).2.1
    have hvB : ∀ b ∈ B, b.start < b.«end» :=
      fun b hb => hvS b (List.mem_append_right _ hb)
    have hlenS : lenSum (s₀ :: S') = lenSum A + lenSum B := by
      rw [hT, lenSum_append]
    have hchIB : (∀ K ∈ s₀ :: S', I.start > K.«end» + 1 ∨ K.start > I.«end» + 1) →
        (I :: B).Chain' Separated := by
      intro hdisj
      cases B with
      | nil => simp
      | cons b B' =>
        refine List.chain'_cons.mpr ⟨?_, hchB⟩
        have hb : b ∈ s₀ :: S' := by
          rw [hT]
          exact List.mem_append_right _ (by simp)
        rcases hdisj b hb with h1 | h2
        · exfalso
          have hbv := hvB b (by simp)
          have hbge := hBge b (by simp)
          linarith
        · exact h2
    cases A with
    | nil =>
      have hsum : lenSum (s₀ :: S') = lenSum B := by
        rw [hT]
        rfl
      rw [List.nil_append, sweepList]
      constructor
      · have hml := mergeLoop_sum_le B I hchB hvB
        linarith
      · intro hdisj
        rw [mergeLoop_of_chain' I B (hchIB hdisj), lenSum_cons]
        linarith
    | cons a A' =>
      have hAne : (a :: A') ≠ [] := List.cons_ne_nil _ _
      have hchA : (a :: A').Chain' Separated := (List.chain'_append.mp hchS).1
      rw [sweepList_append_chain (a :: A') (I :: B) hAne hchA]
      have hLmem : (a :: A').getLast hAne ∈ s₀ :: S' := by
        rw [hT]
        exact List.mem_append_left _ (List.getLast_mem hAne)
      have hLv : ((a :: A').getLast hAne).start < ((a :: A').getLast hAne).«end» :=
        hS.2 _ hLmem
      have hLle : ((a :: A').getLast hAne).start ≤ I.start :=
        hAle _ (List.getLast_mem hAne)
      have hsplit : lenSum (a :: A') = lenSum ((a :: A').dropLast) +
          (((a :: A').getLast hAne).«end» - ((a :: A').getLast hAne).start) := by
        conv_lhs => rw [← List.dropLast_append_getLast hAne]
        rw [lenSum_append]
        simp [lenSum]
      constructor
      · by_cases hc : I.start ≤ ((a :: A').getLast hAne).«end» + 1
        · rw [mergeLoop, if_pos hc]
          have hml := mergeLoop_sum_le B
            ⟨((a :: A').getLast hAne).start, max ((a :: A').getLast hAne).«end» I.«end»⟩
            hchB hvB
          dsimp only at hml
          have hmaxb : max ((a :: A').getLast hAne).«end» I.«end» -
              ((a :: A').getLast hAne).start ≤
              (((a :: A').getLast hAne).«end» - ((a :: A').getLast hAne).start) +
              (I.«end» - I.start) + 1 := by
            rcases max_choice ((a :: A').getLast hAne).«end» I.«end» with hm | hm <;>
              rw [hm] <;> linarith
          rw [lenSum_append]
          linarith
        · rw [mergeLoop, if_neg hc]
          have hml := mergeLoop_sum_le B I hchB hvB
          rw [lenSum_append, lenSum_cons]
          linarith
      · intro hdisj
        have hnot : ¬ I.start ≤ ((a :: A').getLast hAne).«end» + 1 := by
          rcases hdisj _ hLmem with h1 | h2
          · exact not_le_of_lt h1
          · exfalso
            linarith
        rw [mergeLoop, if_neg hnot, mergeLoop_of_chain' I B (hchIB hdisj)]
        rw [lenSum_append, lenSum_cons, lenSum_cons]
        linarith

/-- C3 counterexample: the claimed bound without the tolerance slack fails —
merging `[10.5, 11.5]` into `{[0, 10]}` bridges the 0.5 s gap (10.5 ≤ 10 + ε),
producing `[0, 11.5]` with unique time 11.5 > 10 + 1. -/
theorem coverage_bound_counterexample :
    ¬ (calculateUniqueTime (merge [⟨0, 10⟩] ⟨21/2, 23/2⟩) ≤
        calculateUniqueTime [⟨0, 10⟩] +
          ((⟨21/2, 23/2⟩ : Interval).«end» - (⟨21/2, 23/2⟩ : Interval).start)) := by
  have hm : merge [⟨0, 10⟩] ⟨21/2, 23/2⟩ = [⟨0, 23/2⟩] := by
    norm_num [merge, mergeIntervals, sortIntervals, insertSorted, sweepList, mergeLoop,
      max_def]
  rw [hm]
  norm_num [calculateUniqueTime]

/-- Witness for the amended C3 at a disjoint interval: both the slack bound
and exact additivity hold for `S = {[0,10]}`, `I = [20,30]`. -/
theorem coverage_bound_witness :
    (CoverageSet [⟨0, 10⟩] ∧ (⟨20, 30⟩ : Interval).start < (⟨20, 30⟩ : Interval).«end» ∧
      (∀ K ∈ ([⟨0, 10⟩] : List Interval),
        (⟨20, 30⟩ : Interval).start > K.«end» + 1 ∨ K.start > (⟨20, 30⟩ : Interval).«end» + 1)) ∧
    calculateUniqueTime (merge [⟨0, 10⟩] ⟨20, 30⟩) ≤
        calculateUniqueTime [⟨0, 10⟩] + ((⟨20, 30⟩ : Interval).«end» - (⟨20, 30⟩ : Interval).start) + 2 ∧
    calculateUniqueTime (merge [⟨0, 10⟩] ⟨20, 30⟩) =
        calculateUniqueTime [⟨0, 10⟩] + ((⟨20, 30⟩ : Interval).«end» - (⟨20, 30⟩ : Interval).start) := by
  have hcs : CoverageSet [⟨0, 10⟩] := by
    constructor
    · exact List.chain'_singleton _
    · intro i hi
      rw [List.mem_singleton] at hi
      subst hi
      norm_num
  have hdisj : ∀ K ∈ ([⟨0, 10⟩] : List Interval),
      (⟨20, 30⟩ : Interval).start > K.«end» + 1 ∨ K.start > (⟨20, 30⟩ : Interval).«end» + 1 := by
    intro K hK
    rw [List.mem_singleton] at hK
    subst hK
    left
    norm_num
  have hb := coverage_bound [⟨0, 10⟩] ⟨20, 30⟩ hcs (by norm_num)
  exact ⟨⟨hcs, by norm_num, hdisj⟩, hb.1, hb.2 hdisj⟩

theorem mkRat_one_two : (mkRat 1 2 : ℚ) = 1/2 := by
  rw [Rat.mkRat_eq_div]
  norm_num

/-- Unfolding `recordWatchedSegment` when a watch start is open. -/
theorem recordWatchedSegment_eq (st : EngineState) (s t : ℚ)
    (h : st.currentWatchStart = some s) :
    recordWatchedSegment st t =
      if t > s ∧ t - s ≥ mkRat 1 2 then
        { st with
          watchedIntervals := mergeIntervals (st.watchedIntervals ++ [⟨s, t⟩])
          sessionWatchedTime := st.sessionWatchedTime + (t - s)
          currentWatchStart := none }
      else
        { st with currentWatchStart := none } := by
  unfold recordWatchedSegment
  rw [h]

/-- C4: when a time update jumps by more than 2 s during playback, the code
does NOT close the open segment at the pre-jump position: starting from an
open segment at 0 with previous position 10, a jump to 100 records the
interval [0, 100] (close boundary = post-jump `currentTime`), not [0, 10] as
the claim requires; a new segment is then opened at 100 since playback is
active. -/
theorem handleTimeUpdate_seek_closes_at_current_position :
    (handleTimeUpdate ⟨[], 0, 0, 0, 0, some 0, 10, false⟩ 100 false).watchedIntervals
        = [⟨0, 100⟩] ∧
    (handleTimeUpdate ⟨[], 0, 0, 0, 0, some 0, 10, false⟩ 100 false).sessionWatchedTime = 100 ∧
    (handleTimeUpdate ⟨[], 0, 0, 0, 0, some 0, 10, false⟩ 100 false).currentWatchStart
        = some 100 ∧
    ([⟨0, 100⟩] : List Interval) ≠ [⟨0, 10⟩] := by
  have hrec : recordWatchedSegment (⟨[], 0, 0, 0, 0, some 0, 10, false⟩ : EngineState) 100
      = ⟨[⟨0, 100⟩], 0, 0, 0, 100, none, 10, false⟩ := by
    rw [recordWatchedSegment_eq _ 0 100 rfl]
    rw [if_pos (show (100:ℚ) > 0 ∧ (100:ℚ) - 0 ≥ mkRat 1 2 by rw [mkRat_one_two]; norm_num)]
    norm_num [mergeIntervals]
  have hmain : handleTimeUpdate (⟨[], 0, 0, 0, 0, some 0, 10, false⟩ : EngineState) 100 false
      = ⟨[⟨0, 100⟩], 0, 0, 0, 100, some 100, 100, false⟩ := by
    simp only [handleTimeUpdate, hrec]
    norm_num
  rw [hmain]
  refine ⟨rfl, rfl, rfl, ?_⟩
  simp only [ne_eq, List.cons.injEq, Interval.mk.injEq, and_true, not_and]
  intro _
  norm_num

/-- C5 counterexample: `loadProgress` never reads the record's
`totalDuration` or `progressPercentage`, so a fresh load after a save does
not reproduce them: saving a state with `totalDuration = 100` and progress 37
and loading into a fresh engine leaves `totalDuration = 0` and progress 0. -/
theorem loadSave_roundtrip_counterexample :
    (loadProgress initState (saveProgressToStorage
        { initState with
            watchedIntervals := [⟨0, 37⟩]
            currentProgress := 37
            uniqueWatchedTime := 37
            totalDuration := 100
            sessionWatchedTime := 37 } 5 999)).totalDuration ≠ (100 : ℚ) ∧
    (loadProgress initState (saveProgressToStorage
        { initState with
            watchedIntervals := [⟨0, 37⟩]
            currentProgress := 37
            uniqueWatchedTime := 37
            totalDuration := 100
            sessionWatchedTime := 37 } 5 999)).currentProgress ≠ (37 : ℚ) := by
  decide

/-- C5 (amended): loading immediately after saving restores the intervals and
the session watched time verbatim, and the last position whenever the saved
position is nonzero and the one-shot resume flag of the loading state is
unset; `totalDuration` and `progressPercent` are not read back from the
record (they are re-derived from media metadata instead). -/
theorem loadSave_restores_intervals_session (st st₀ : EngineState) (pos now : ℚ) :
    (loadProgress st₀ (saveProgressToStorage st pos now)).watchedIntervals
        = st.watchedIntervals ∧
    (loadProgress st₀ (saveProgressToStorage st pos now)).sessionWatchedTime
        = st.sessionWatchedTime ∧
    (pos ≠ 0 → st₀.hasResumed = false →
      (loadProgress st₀ (saveProgressToStorage st pos now)).lastPosition = pos) := by
  unfold loadProgress saveProgressToStorage
  refine ⟨?_, ?_, ?_⟩
  · dsimp only
    split <;> rfl
  · dsimp only
    split <;> rfl
  · intro hpos hres
    dsimp only
    rw [if_pos ⟨hpos, hres⟩]

/-- Witness for the amended C5 at a concrete state and position. -/
theorem loadSave_restores_intervals_session_witness :
    ((3 : ℚ) ≠ 0 ∧ initState.hasResumed = false) ∧
    (loadProgress initState (saveProgressToStorage
        { initState with watchedIntervals := [⟨1, 2⟩], sessionWatchedTime := 7 } 3 0)).lastPosition
      = 3 :=
  ⟨⟨by decide, rfl⟩,
    (loadSave_restores_intervals_session
        { initState with watchedIntervals := [⟨1, 2⟩], sessionWatchedTime := 7 }
        initState 3 0).2.2 (by decide) rfl⟩

/-- C6 counterexample: `handleLoadedMetadata` is unconditional — with
`totalDuration` already 100, a metadata report of 200 overwrites it instead
of being ignored. -/
theorem handleLoadedMetadata_overwrites :
    (handleLoadedMetadata { initState with totalDuration := 100 } 200).totalDuration = 200 ∧
    (200 : ℚ) ≠ 100 := by
  decide

/-- C6 (amended): `handleLoadedMetadata` always sets `totalDuration` to the
reported duration; a later report with a different positive duration replaces
the current value — there is no set-once guard and no conflict check. -/
theorem handleLoadedMetadata_sets (st : EngineState) (d : ℚ) :
    (handleLoadedMetadata st d).totalDuration = d := rfl

/-- C7: closing a segment shorter than 0.5 s is a silent no-op — neither the
intervals nor the session time change; a segment of length at least 0.5 s is
merged into the intervals and its raw length added to the session time. -/
theorem recordWatchedSegment_threshold (st : EngineState) (s t : ℚ)
    (h : st.currentWatchStart = some s) :
    (t - s < 1/2 →
      (recordWatchedSegment st t).watchedIntervals = st.watchedIntervals ∧
      (recordWatchedSegment st t).sessionWatchedTime = st.sessionWatchedTime) ∧
    (1/2 ≤ t - s →
      (recordWatchedSegment st t).watchedIntervals
          = mergeIntervals (st.watchedIntervals ++ [⟨s, t⟩]) ∧
      (recordWatchedSegment st t).sessionWatchedTime
          = st.sessionWatchedTime + (t - s)) := by
  rw [recordWatchedSegment_eq st s t h]
  constructor
  · intro hlt
    have hne : ¬(t > s ∧ t - s ≥ mkRat 1 2) := by
      rw [mkRat_one_two]
      rintro ⟨_, hge⟩
      linarith
    rw [if_neg hne]
    exact ⟨rfl, rfl⟩
  · intro hge
    have hcond : t > s ∧ t - s ≥ mkRat 1 2 := by
      rw [mkRat_one_two]
      have h0 : (0 : ℚ) < 1/2 := by norm_num
      exact ⟨by linarith, hge⟩
    rw [if_pos hcond]
    exact ⟨rfl, rfl⟩

/-- Witness for C7: a 0.3 s segment (scenario D) is discarded. -/
theorem recordWatchedSegment_threshold_witness :
    ({ initState with currentWatchStart := some 2 } : EngineState).currentWatchStart = some 2 ∧
    ((23/10 : ℚ) - 2 < 1/2 ∧
      (recordWatchedSegment { initState with currentWatchStart := some 2 } (23/10)).watchedIntervals
        = ({ initState with currentWatchStart := some 2 } : EngineState).watchedIntervals ∧
      (recordWatchedSegment { initState with currentWatchStart := some 2 } (23/10)).sessionWatchedTime
        = ({ initState with currentWatchStart := some 2 } : EngineState).sessionWatchedTime) :=
  ⟨rfl, by norm_num,
    ((recordWatchedSegment_threshold { initState with currentWatchStart := some 2 } 2 (23/10)
      rfl).1 (by norm_num)).1,
    ((recordWatchedSegment_threshold { initState with currentWatchStart := some 2 } 2 (23/10)
      rfl).1 (by norm_num)).2⟩

/-- C9: `loadProgress` installs the deserialized intervals verbatim — no
sorting, merging or validation — and a persisted payload with overlapping,
unsorted intervals leaves the engine in a state violating the CoverageSet
invariant immediately after load. -/
theorem loadProgress_verbatim :
    (∀ (st : EngineState) (r : PersistedRecord),
      (loadProgress st r).watchedIntervals = r.intervals) ∧
    ∃ r : PersistedRecord,
      ¬ CoverageSet ((loadProgress initState r).watchedIntervals) := by
  have hver : ∀ (st : EngineState) (r : PersistedRecord),
      (loadProgress st r).watchedIntervals = r.intervals := by
    intro st r
    unfold loadProgress
    dsimp only
    split <;> rfl
  refine ⟨hver, ⟨[⟨0, 10⟩, ⟨2, 5⟩], 0, 0, 0, 0, 0⟩, ?_⟩
  rw [hver]
  rintro ⟨hchain, _⟩
  have hsep : Separated ⟨0, 10⟩ ⟨2, 5⟩ := (List.chain'_cons.mp hchain).1
  have : (10 : ℚ) + 1 < 2 := hsep
  linarith

/-- C10: restoration is skipped when the persisted `lastPosition` is 0 (the
truthiness guard) — the position is untouched and the one-shot flag keeps its
value — and it happens exactly when the saved position is nonzero (strictly
positive, for positions saved from playback) and the flag is still unset. -/
theorem loadProgress_restore_guard (st : EngineState) (r : PersistedRecord)
    (h : 0 ≤ r.lastPosition) :
    ((0 < r.lastPosition ∧ st.hasResumed = false) →
      (loadProgress st r).lastPosition = r.lastPosition ∧
      (loadProgress st r).hasResumed = true) ∧
    (¬(0 < r.lastPosition ∧ st.hasResumed = false) →
      (loadProgress st r).lastPosition = st.lastPosition ∧
      (loadProgress st r).hasResumed = st.hasResumed) := by
  unfold loadProgress
  constructor
  · rintro ⟨hpos, hres⟩
    dsimp only
    rw [if_pos ⟨ne_of_gt hpos, hres⟩]
    exact ⟨rfl, rfl⟩
  · intro hcase
    have hneg : ¬(r.lastPosition ≠ 0 ∧ st.hasResumed = false) := by
      rintro ⟨hne, hres⟩
      exact hcase ⟨lt_of_le_of_ne h (Ne.symm hne), hres⟩
    dsimp only
    rw [if_neg hneg]
    exact ⟨rfl, rfl⟩

/-- Witness for C10: a saved position of exactly 0 is never restored and the
resume flag stays unset. -/
theorem loadProgress_restore_guard_witness :
    ((0 : ℚ) ≤ 0 ∧ ¬((0:ℚ) < 0 ∧ initState.hasResumed = false)) ∧
    ((loadProgress initState ⟨[], 0, 0, 0, 0, 0⟩).lastPosition = initState.lastPosition ∧
      (loadProgress initState ⟨[], 0, 0, 0, 0, 0⟩).hasResumed = initState.hasResumed) :=
  ⟨⟨le_refl 0, fun hc => absurd hc.1 (lt_irrefl 0)⟩,
    (loadProgress_restore_guard initState ⟨[], 0, 0, 0, 0, 0⟩ (le_refl 0)).2
      (fun hc => absurd hc.1 (lt_irrefl 0))⟩

theorem inv_initState (D : ℚ) : Inv D initState := by
  refine ⟨?_, ?_, ?_, ?_, ?_⟩
  · intro i hi
    exact absurd hi (List.not_mem_nil i)
  · exact List.chain'_nil
  · exact Or.inl rfl
  · show (0 : ℚ) = if (0:ℚ) < 0 then calculateUniqueTime [] / 0 * 100 else 0
    rw [if_neg (lt_irrefl 0)]
  · intro s hs
    exact absurd hs (by simp [initState])

/-- `recordWatchedSegment` keeps the interval bounds, the chain invariant,
the total duration and the progress value, and closes the open segment. -/
theorem recordWatchedSegment_preserves (D : ℚ) (st : EngineState) (t : ℚ)
    (ht : 0 ≤ t ∧ t ≤ D)
    (hbounds : ∀ i ∈ st.watchedIntervals, 0 ≤ i.start ∧ i.start < i.«end» ∧ i.«end» ≤ D)
    (hchain : st.watchedIntervals.Chain' Separated)
    (hws : ∀ s, st.currentWatchStart = some s → 0 ≤ s ∧ s ≤ D) :
    (∀ i ∈ (recordWatchedSegment st t).watchedIntervals,
        0 ≤ i.start ∧ i.start < i.«end» ∧ i.«end» ≤ D) ∧
    (recordWatchedSegment st t).watchedIntervals.Chain' Separated ∧
    (recordWatchedSegment st t).totalDuration = st.totalDuration ∧
    (recordWatchedSegment st t).currentProgress = st.currentProgress ∧
    (recordWatchedSegment st t).currentWatchStart = none := by
  cases hcs : st.currentWatchStart with
  | none =>
    unfold recordWatchedSegment
    rw [hcs]
    exact ⟨hbounds, hchain, rfl, rfl, hcs⟩
  | some s =>
    rw [recordWatchedSegment_eq st s t hcs]
    by_cases hcond : t > s ∧ t - s ≥ mkRat 1 2
    · rw [if_pos hcond]
      refine ⟨?_, mergeIntervals_chain' _, rfl, rfl, rfl⟩
      intro i hi
      obtain ⟨⟨x, hx, hxs, hxe⟩, ⟨y, hy, hye⟩⟩ :=
        mergeIntervals_anchored (st.watchedIntervals ++ [⟨s, t⟩]) i hi
      have hxb : 0 ≤ x.start ∧ x.start < x.«end» ∧ x.«end» ≤ D := by
        rcases List.mem_append.mp hx with hx | hx
        · exact hbounds x hx
        · rw [List.mem_singleton] at hx
          subst hx
          exact ⟨(hws s hcs).1, hcond.1, ht.2⟩
      have hyb : y.«end» ≤ D := by
        rcases List.mem_append.mp hy with hy | hy
        · exact (hbounds y hy).2.2
        · rw [List.mem_singleton] at hy
          subst hy
          exact ht.2
      refine ⟨hxs ▸ hxb.1, ?_, hye ▸ hyb⟩
      rw [hxs]
      exact lt_of_lt_of_le hxb.2.1 hxe
    · rw [if_neg hcond]
      exact ⟨hbounds, hchain, rfl, rfl, rfl⟩

theorem engineStep_preserves_inv (D : ℚ) (hD : 0 < D) (st : EngineState)
    (e : PlayerEvent) (hv : ValidEvent D e) (hinv : Inv D st) :
    Inv D (engineStep st e) := by
  obtain ⟨hb, hch, htd, hprog, hws⟩ := hinv
  have hprog0 : st.totalDuration = 0 → st.currentProgress = 0 := by
    intro h0
    rw [hprog, h0, if_neg (lt_irrefl 0)]
  -- analyze the handler before the display effect
  suffices hmain : (∀ i ∈ (handleEvent st e).watchedIntervals,
        0 ≤ i.start ∧ i.start < i.«end» ∧ i.«end» ≤ D) ∧
      (handleEvent st e).watchedIntervals.Chain' Separated ∧
      ((handleEvent st e).totalDuration = 0 ∨ (handleEvent st e).totalDuration = D) ∧
      ((handleEvent st e).totalDuration = 0 → (handleEvent st e).currentProgress = 0) ∧
      (∀ s, (handleEvent st e).currentWatchStart = some s → 0 ≤ s ∧ s ≤ D) by
    obtain ⟨g1, g2, g3, g4, g5⟩ := hmain
    show Inv D (updateDisplay (handleEvent st e))
    unfold updateDisplay Inv
    refine ⟨g1, g2, g3, ?_, g5⟩
    dsimp only
    by_cases h0 : 0 < (handleEvent st e).totalDuration
    · rw [if_pos h0, if_pos h0]
    · rw [if_neg h0, if_neg h0]
      rcases g3 with h | h
      · exact g4 h
      · exact absurd (lt_of_lt_of_le hD (le_of_eq h.symm)) h0
  cases e with
  | play t =>
    refine ⟨hb, hch, htd, hprog0, ?_⟩
    intro s hs
    have hts : some t = some s := hs
    cases hts
    exact hv
  | pause t =>
    obtain ⟨h1, h2, h3, h4, h5⟩ := recordWatchedSegment_preserves D st t hv hb hch hws
    refine ⟨h1, h2, ?_, ?_, ?_⟩
    · show (recordWatchedSegment st t).totalDuration = 0 ∨
        (recordWatchedSegment st t).totalDuration = D
      rw [h3]
      exact htd
    · intro h0
      show (recordWatchedSegment st t).currentProgress = 0
      rw [h4]
      refine hprog0 ?_
      rw [← h3]
      exact h0
    · intro s hs
      have hs' : (recordWatchedSegment st t).currentWatchStart = some s := hs
      rw [h5] at hs'
      cases hs'
  | ended t =>
    obtain ⟨h1, h2, h3, h4, h5⟩ := recordWatchedSegment_preserves D st t hv hb hch hws
    refine ⟨h1, h2, ?_, ?_, ?_⟩
    · show (recordWatchedSegment st t).totalDuration = 0 ∨
        (recordWatchedSegment st t).totalDuration = D
      rw [h3]
      exact htd
    · intro h0
      show (recordWatchedSegment st t).currentProgress = 0
      rw [h4]
      refine hprog0 ?_
      rw [← h3]
      exact h0
    · intro s hs
      have hs' : (recordWatchedSegment st t).currentWatchStart = some s := hs
      rw [h5] at hs'
      cases hs'
  | seeked t paused =>
    obtain ⟨h1, h2, h3, h4, h5⟩ := recordWatchedSegment_preserves D st t hv hb hch hws
    cases paused with
    | true =>
      have heq : handleEvent st (.seeked t true) = recordWatchedSegment st t := by
        show handleSeeked st t true = _
        unfold handleSeeked
        rw [if_pos rfl]
      rw [heq]
      refine ⟨h1, h2, ?_, ?_, ?_⟩
      · rw [h3]
        exact htd
      · intro h0
        rw [h4]
        refine hprog0 ?_
        rw [← h3]
        exact h0
      · intro s hs
        rw [h5] at hs
        cases hs
    | false =>
      have heq : handleEvent st (.seeked t false)
          = { recordWatchedSegment st t with currentWatchStart := some t } := by
        show handleSeeked st t false = _
        unfold handleSeeked
        rw [if_neg (by simp)]
      rw [heq]
      refine ⟨h1, h2, ?_, ?_, ?_⟩
      · show (recordWatchedSegment st t).totalDuration = 0 ∨
          (recordWatchedSegment st t).totalDuration = D
        rw [h3]
        exact htd
      · intro h0
        show (recordWatchedSegment st t).currentProgress = 0
        rw [h4]
        refine hprog0 ?_
        rw [← h3]
        exact h0
      · intro s hs
        have hts : some t = some s := hs
        cases hts
        exact hv
  | timeupdate t paused =>
    by_cases hj : |t - st.lastPosition| > 2
    · obtain ⟨h1, h2, h3, h4, h5⟩ := recordWatchedSegment_preserves D st t hv hb hch hws
      cases paused with
      | true =>
        have heq : handleEvent st (.timeupdate t true)
            = { recordWatchedSegment st t with lastPosition := t } := by
          show handleTimeUpdate st t true = _
          unfold handleTimeUpdate
          rw [if_pos hj, if_pos rfl]
        rw [heq]
        refine ⟨h1, h2, ?_, ?_, ?_⟩
        · show (recordWatchedSegment st t).totalDuration = 0 ∨
            (recordWatchedSegment st t).totalDuration = D
          rw [h3]
          exact htd
        · intro h0
          show (recordWatchedSegment st t).currentProgress = 0
          rw [h4]
          refine hprog0 ?_
          rw [← h3]
          exact h0
        · intro s hs
          have hs' : (recordWatchedSegment st t).currentWatchStart = some s := hs
          rw [h5] at hs'
          cases hs'
      | false =>
        have heq : handleEvent st (.timeupdate t false)
            = { recordWatchedSegment st t with
                  currentWatchStart := some t, lastPosition := t } := by
          show handleTimeUpdate st t false = _
          unfold handleTimeUpdate
          rw [if_pos hj, if_neg (by simp)]
        rw [heq]
        refine ⟨h1, h2, ?_, ?_, ?_⟩
        · show (recordWatchedSegment st t).totalDuration = 0 ∨
            (recordWatchedSegment st t).totalDuration = D
          rw [h3]
          exact htd
        · intro h0
          show (recordWatchedSegment st t).currentProgress = 0
          rw [h4]
          refine hprog0 ?_
          rw [← h3]
          exact h0
        · intro s hs
          have hts : some t = some s := hs
          cases hts
          exact hv
    · have heq : handleEvent st (.timeupdate t paused) = { st with lastPosition := t } := by
        show handleTimeUpdate st t paused = _
        unfold handleTimeUpdate
        rw [if_neg hj]
      rw [heq]
      exact ⟨hb, hch, htd, hprog0, fun s hs => hws s hs⟩
  | metadata d =>
    have hd : d = D := hv
    subst hd
    refine ⟨hb, hch, Or.inr rfl, ?_, hws⟩
    intro h0
    exact absurd h0 (ne_of_gt hD)

theorem reachable_inv (D : ℚ) (hD : 0 < D) (st : EngineState)
    (hR : Reachable D st) : Inv D st := by
  induction hR with
  | init => exact inv_initState D
  | next hR hv ih => exact engineStep_preserves_inv D hD _ _ hv ih

/-- Bounded separated chains cover at most `D - lo` of timeline. -/
theorem lenSum_le_of_chain (D : ℚ) (l : List Interval) (lo : ℚ)
    (hchain : l.Chain' Separated)
    (hb : ∀ i ∈ l, lo ≤ i.start ∧ i.start < i.«end» ∧ i.«end» ≤ D)
    (hlo : lo ≤ D) :
    lenSum l ≤ D - lo := by
  induction l generalizing lo with
  | nil =>
    rw [show lenSum [] = 0 from rfl]
    linarith
  | cons i rest ih =>
    have hi := hb i (by simp)
    have hrc : rest.Chain' Separated := (List.chain'_cons'.mp hchain).2
    have hsep := sep_all_of_chain' i rest hchain (fun x hx => (hb x hx).2.1)
    have hrb : ∀ x ∈ rest, i.«end» ≤ x.start ∧ x.start < x.«end» ∧ x.«end» ≤ D := by
      intro x hx
      have h1 : i.«end» + 1 < x.start := hsep x hx
      exact ⟨by linarith, (hb x (List.mem_cons_of_mem _ hx)).2.1,
        (hb x (List.mem_cons_of_mem _ hx)).2.2⟩
    have hIH := ih i.«end» hrc hrb hi.2.2
    rw [lenSum_cons]
    linarith [hi.1, hi.2.1]

/-- C8: for every state reachable through valid player events on a video of
duration `D > 0`, the progress equals `uniqueTime / totalDuration * 100`
once the duration is known, equals 0 before that, and never exceeds 100. -/
theorem progress_correct (D : ℚ) (st : EngineState) (hD : 0 < D)
    (hR : Reachable D st) :
    (0 < st.totalDuration →
      st.currentProgress =
        calculateUniqueTime st.watchedIntervals / st.totalDuration * 100) ∧
    (¬ 0 < st.totalDuration → st.currentProgress = 0) ∧
    st.currentProgress ≤ 100 := by
  obtain ⟨hb, hch, htd, hprog, _⟩ := reachable_inv D hD st hR
  refine ⟨?_, ?_, ?_⟩
  · intro h
    rw [hprog, if_pos h]
  · intro h
    rw [hprog, if_neg h]
  · rcases htd with h0 | hDeq
    · rw [hprog, h0, if_neg (lt_irrefl 0)]
      norm_num
    · rw [hprog, hDeq, if_pos hD, calculateUniqueTime_eq_lenSum]
      have hsum : lenSum st.watchedIntervals ≤ D - 0 :=
        lenSum_le_of_chain D _ 0 hch (fun i hi => hb i hi) (le_of_lt hD)
      have hdiv : lenSum st.watchedIntervals / D ≤ 1 := by
        rw [div_le_one hD]
        linarith
      calc lenSum st.watchedIntervals / D * 100 ≤ 1 * 100 :=
            mul_le_mul_of_nonneg_right hdiv (by norm_num)
        _ = 100 := one_mul 100

/-- Witness for C8: scenario E — metadata 100, play at 0, pause at 37 gives a
reachable state with progress exactly 37, which the theorem bounds by 100. -/
theorem progress_correct_witness :
    ((0:ℚ) < 100 ∧
      Reachable 100 (engineStep (engineStep (engineStep initState
        (.metadata 100)) (.play 0)) (.pause 37))) ∧
    (engineStep (engineStep (engineStep initState
        (.metadata 100)) (.play 0)) (.pause 37)).currentProgress = 37 ∧
    (engineStep (engineStep (engineStep initState
        (.metadata 100)) (.play 0)) (.pause 37)).currentProgress ≤ 100 := by
  have hreach : Reachable 100 (engineStep (engineStep (engineStep initState
      (.metadata 100)) (.play 0)) (.pause 37)) :=
    Reachable.next (Reachable.next (Reachable.next Reachable.init rfl)
      (show (0:ℚ) ≤ 0 ∧ (0:ℚ) ≤ 100 by norm_num))
      (show (0:ℚ) ≤ 37 ∧ (37:ℚ) ≤ 100 by norm_num)
  have h1 : engineStep initState (.metadata 100) = ⟨[], 0, 0, 100, 0, none, 0, false⟩ := by
    show updateDisplay (handleLoadedMetadata initState 100) = _
    unfold updateDisplay handleLoadedMetadata initState calculateUniqueTime
    norm_num
  have h2 : engineStep (⟨[], 0, 0, 100, 0, none, 0, false⟩ : EngineState) (.play 0)
      = ⟨[], 0, 0, 100, 0, some 0, 0, false⟩ := by
    show updateDisplay (handlePlay _ 0) = _
    unfold updateDisplay handlePlay calculateUniqueTime
    norm_num
  have h3 : engineStep (⟨[], 0, 0, 100, 0, some 0, 0, false⟩ : EngineState) (.pause 37)
      = ⟨[⟨0, 37⟩], 37, 37, 100, 37, none, 0, false⟩ := by
    show updateDisplay (recordWatchedSegment _ 37) = _
    rw [recordWatchedSegment_eq _ 0 37 rfl]
    rw [if_pos (show (37:ℚ) > 0 ∧ (37:ℚ) - 0 ≥ mkRat 1 2 by rw [mkRat_one_two]; norm_num)]
    unfold updateDisplay calculateUniqueTime
    norm_num [mergeIntervals]
  rw [h1, h2, h3] at hreach ⊢
  exact ⟨⟨by norm_num, hreach⟩, rfl, (progress_correct 100 _ (by norm_num) hreach).2.2⟩

end App

